import Mathlib

/-
Shallow embedding of the vos Python module (src/vos/vos.py), a client
library for the VOSpace storage service, together with theorems settling
the claims about it.  Python strings are modelled as Lean String or as
List Char (for the URI-normalisation functions, where character-level
reasoning is needed); Python dictionaries are modelled as insertion-ordered
association lists with in-place overwrite; functions that can raise are
modelled with Option or Except.  Network responses are passed to the
embedded functions as explicit arguments.
-/

set_option autoImplicit false

namespace VOS

/-! Python os and stat module constants used by the source. -/

def O_RDONLY : Nat := 0
def O_WRONLY : Nat := 1
def O_CREAT : Nat := 64
def O_APPEND : Nat := 1024
def O_TRUNC : Nat := 512

def SEEK_SET : Nat := 0
def SEEK_CUR : Nat := 1
def SEEK_END : Nat := 2

def S_IFDIR : Nat := 0o40000
def S_IFREG : Nat := 0o100000
def S_IROTH : Nat := 0o004
def S_IRGRP : Nat := 0o040
def S_IWGRP : Nat := 0o020

def EIO : Nat := 5

/-! Client.open (vos.py lines 835-859): mode-to-HTTP-method selection.
A string mode is coerced to O_RDONLY before the dispatch; head=True
overrides whatever method was chosen. -/

inductive PyMode where
  | str (s : String)
  | flags (n : Nat)
deriving DecidableEq

def openMethod (mode : PyMode) (head : Bool) : Option String :=
  let m : Nat :=
    match mode with
    | .str _ => O_RDONLY
    | .flags n => n
  let method : Option String :=
    if m = O_RDONLY then some "GET"
    else if m &&& (O_WRONLY ||| O_CREAT) ≠ 0 then some "PUT"
    else if m &&& O_APPEND ≠ 0 then some "POST"
    else if m &&& O_TRUNC ≠ 0 then some "DELETE"
    else none
  if head then some "HEAD" else method

/-! VOFile.seek (vos.py lines 527-534).  The method only assigns the
logical file position field and touches nothing else; in particular the
state carries the connection-describing fields unchanged and no request
is issued.  A SEEK_END seek reads the declared size; when the size is the
Python value None the subtraction raises TypeError, modelled as none. -/

structure VOFileState where
  closed : Bool
  respStatus : Nat
  url : String
  name : String
  timeout : Int
  size : Option Int
  fpos : Int
deriving DecidableEq

def seek (st : VOFileState) (offset : Int) (loc : Nat) : Option VOFileState :=
  if loc = SEEK_CUR then some { st with fpos := st.fpos + offset }
  else if loc = SEEK_SET then some { st with fpos := offset }
  else if loc = SEEK_END then
    match st.size with
    | some s => some { st with fpos := s - offset }
    | none => none
  else some st

def seekTestState : VOFileState :=
  { closed := false, respStatus := 503, url := "https://h/x", name := "x"
  , timeout := -1, size := some 100, fpos := 10 }

/-! Connection.getConnection (vos.py lines 82-126).  The connect loop is
meant to retry transport failures, but the body of the HTTPException
handler evaluates the undefined name logggin (a typo for logging) right
after its first logging call, so that branch raises NameError instead of
retrying; consequently only the first connect attempt is ever consumed.
Any other exception during connect is turned into IOError with errno
ECONNREFUSED carrying the host. -/

inductive ConnectOutcome where
  | success
  | httpException
  | otherException
deriving DecidableEq

inductive ConnErr where
  | nameError
  | connRefused (host : String)
deriving DecidableEq

def getConnection (host : String) (attempt : Nat → ConnectOutcome) : Except ConnErr Unit :=
  match attempt 0 with
  | .success => .ok ()
  | .httpException => .error .nameError
  | .otherException => .error (.connRefused host)

/-! VOFile.close and VOFile.checkstatus (vos.py lines 536-568).  The
response obtained after sending the terminating zero-length chunk is an
explicit argument.  Note that close passes its own default code tuple
(200, 201, 202, 206, 302, 303, 503), which does not contain 416, while
the default tuple in the signature of checkstatus does.  An httplib
response body can be read only once: on a 409 the DuplicateNode search
consumes it, so when that search fails the later read that builds the
generic error message returns the empty string; for every other
non-accepted status that later read is the first one and returns the
body.  checkstatus models this by carrying the empty string exactly in
the 409 fall-through case. -/

structure HttpResponse where
  status : Nat
  body : String
  reason : String
deriving DecidableEq

structure VOFileConn where
  closed : Bool
  url : String
deriving DecidableEq

inductive VOErr where
  | nodeNotFound (url : String)
  | notAuthorized (url : String)
  | fileExists (url : String)
  | ioErr (status : Nat) (msg : String) (url : String)
deriving DecidableEq

def startsWithL : List Char → List Char → Bool
  | [], _ => true
  | _ :: _, [] => false
  | a :: as, b :: bs => a = b && startsWithL as bs

def containsSubL (needle : List Char) : List Char → Bool
  | [] => startsWithL needle []
  | c :: cs => startsWithL needle (c :: cs) || containsSubL needle cs

def strContainsSub (hay needle : String) : Bool :=
  containsSubL needle.data hay.data

def checkstatusDefaultCodes : List Nat := [200, 201, 202, 206, 302, 303, 503, 416]

def closeDefaultCodes : List Nat := [200, 201, 202, 206, 302, 303, 503]

def checkstatus (codes : List Nat) (resp : HttpResponse) (url : String) : Except VOErr Bool :=
  if resp.status ∈ codes then .ok true
  else if resp.status = 404 then .error (.nodeNotFound url)
  else if resp.status = 401 then .error (.notAuthorized url)
  else if resp.status = 409 ∧ strContainsSub resp.body "DuplicateNode" = true then
    .error (.fileExists url)
  else
    .error (.ioErr resp.status (if resp.status = 409 then "" else resp.body) url)

def close (st : VOFileConn) (resp : HttpResponse) : Except VOErr (VOFileConn × Option Bool) :=
  if st.closed then .ok (st, none)
  else
    match checkstatus closeDefaultCodes resp st.url with
    | .ok b => .ok ({ st with closed := true }, some b)
    | .error e => .error e

/-! Client.copy (vos.py lines 680-722).  The transfer loop reads buffers
of at most BUFSIZE bytes until a zero-length read, writes each buffer,
feeds it to the incremental MD5 accumulator and adds its length to
destSize.  The accumulator state is modelled as the list of bytes fed so
far, and the hex digest as an arbitrary function of that list, so the
final digest is the digest of the transferred bytes.  The stored MD5
property of the node (an argument here) defaults to the MD5 of the empty
string when the server has none. -/

def BUFSIZE : Nat := 8388608

def emptyMD5 : String := "d41d8cd98f00b204e9800998ecf8427e"

inductive CopyOut where
  | digest (hex : String)
  | size (n : Nat)
deriving DecidableEq

inductive PyErr where
  | osErr (e : Nat) (msg : String) (path : String)
  | ioErr (e : Nat) (msg : String) (path : String)
deriving DecidableEq

def chunksOf (n : Nat) : List Nat → List (List Nat)
  | [] => []
  | b :: bs => (b :: bs.take (n - 1)) :: chunksOf n (bs.drop (n - 1))
termination_by l => l.length
decreasing_by
  simp only [List.length_cons, List.length_drop]
  omega

def copyLoop : List (List Nat) → Nat × List Nat
  | [] => (0, [])
  | buf :: rest =>
    if buf = [] then (0, [])
    else
      let r := copyLoop rest
      (buf.length + r.1, buf ++ r.2)

def copyVerify (md5hex : List Nat → String) (src : List Nat) (storedMD5 : Option String)
    (sendMD5 : Bool) (srcSize : Nat) (srcName : String) : Except PyErr CopyOut :=
  let r := copyLoop (chunksOf BUFSIZE src)
  let destSize := r.1
  let checkMD5 := storedMD5.getD emptyMD5
  if sendMD5 then
    if checkMD5 ≠ md5hex r.2 then Except.error (.osErr EIO "MD5s do not match" srcName)
    else Except.ok (.digest (md5hex r.2))
  else if destSize ≠ srcSize then Except.error (.ioErr EIO "sizes do not match" srcName)
  else Except.ok (.size destSize)

/-! Node model (vos.py class Node).  A property element of the XML tree
is modelled by its short name (the fragment of its uri attribute after
the hash sign), its text (ElementTree text, empty string standing for
empty text) and whether the xsi:nil marker attribute is set.  The node
keeps the list of properties elements of the XML document in order
(blocks), the Python dictionary self.props as an insertion-ordered
association list whose values may be the Python value None (here none),
and the cached self.groupread and self.groupwrite fields, which Python
code may set to None as well. -/

structure PropE where
  name : String
  text : String
  xsiNil : Bool
deriving DecidableEq

structure VNode where
  typ : String
  blocks : List (List PropE)
  props : List (String × Option String)
  groupread : Option String
  groupwrite : Option String
deriving DecidableEq

def dictGet (d : List (String × Option String)) (k : String) : Option (Option String) :=
  match d with
  | [] => none
  | (k1, v) :: rest => if k1 = k then some v else dictGet rest k

def dictSet (d : List (String × Option String)) (k : String) (v : Option String) :
    List (String × Option String) :=
  match d with
  | [] => [(k, v)]
  | (k1, v1) :: rest => if k1 = k then (k1, v) :: rest else (k1, v1) :: dictSet rest k v

def pyGetD (d : List (String × Option String)) (k : String) (dflt : Option String) :
    Option String :=
  match dictGet d k with
  | none => dflt
  | some v => v

/-! Node.changeProp (vos.py lines 292-331).  Every property whose name
equals the key is updated: for a None value the xsi:nil attribute is set,
the text emptied and the props dictionary entry set to None; otherwise
the text is set to the value and the change counter becomes 1.  When no
property matched and the value is not None, a new property element is
appended under the properties element left in the loop variable, which is
the last properties element of the document; if the document has no
properties element at all that variable is unbound and the line raises
NameError, modelled as none. -/

def applyChange (value : Option String) (p : PropE) : PropE :=
  match value with
  | none => { p with xsiNil := true, text := "" }
  | some v => { p with text := v }

def procBlock (key : String) (value : Option String) : List PropE → List PropE × Bool
  | [] => ([], false)
  | p :: rest =>
    let r := procBlock key value rest
    if p.name = key then (applyChange value p :: r.1, true)
    else (p :: r.1, r.2)

def procBlocks (key : String) (value : Option String) :
    List (List PropE) → List (List PropE) × Bool
  | [] => ([], false)
  | b :: bs =>
    let r1 := procBlock key value b
    let r2 := procBlocks key value bs
    (r1.1 :: r2.1, r1.2 || r2.2)

def mkProp (key : String) (v : String) : PropE :=
  { name := key, text := v, xsiNil := false }

def appendLast (p : PropE) : List (List PropE) → List (List PropE)
  | [] => []
  | [b] => [b ++ [p]]
  | b :: bs => b :: appendLast p bs

def hasPropNamed (n : VNode) (k : String) : Bool :=
  n.blocks.any (fun b => b.any (fun p => p.name = k))

def changeProp (n : VNode) (key : String) (value : Option String) :
    Option (VNode × Nat) :=
  let r := procBlocks key value n.blocks
  let props1 := if r.2 && value.isNone then dictSet n.props key none else n.props
  let changed : Nat := if r.2 && value.isSome then 1 else 0
  if r.2 || value.isNone then
    some ({ n with blocks := r.1, props := props1 }, changed)
  else
    match value, n.blocks with
    | some v, _ :: _ => some ({ n with blocks := appendLast (mkProp key v) r.1 }, 1)
    | _, _ => none

/-! Node.chwgrp, Node.chrgrp, Node.setPublic and Node.chmod (vos.py lines
277-289 and 334-369).  chwgrp and chrgrp first assign the cached field
and then call changeProp; chmod makes a file public exactly when the
other-read bit is set, keeps the current groupread and groupwrite values
when the corresponding group bit is set and clears them to the empty
string otherwise, and returns whether the summed change counters are
positive. -/

def chwgrp (n : VNode) (group : Option String) : Option (VNode × Nat) :=
  changeProp { n with groupwrite := group } "groupwrite" group

def chrgrp (n : VNode) (group : Option String) : Option (VNode × Nat) :=
  changeProp { n with groupread := group } "groupread" group

def setPublic (n : VNode) (v : String) : Option (VNode × Nat) :=
  changeProp n "ispublic" (some v)

def chmod (n : VNode) (mode : Nat) : Option (VNode × Bool) := do
  let r1 ← setPublic n (if mode &&& S_IROTH ≠ 0 then "true" else "false")
  let r2 ← chrgrp r1.1 (if mode &&& S_IRGRP ≠ 0 then r1.1.groupread else some "")
  let r3 ← chwgrp r2.1 (if mode &&& S_IWGRP ≠ 0 then r2.1.groupwrite else some "")
  return (r3.1, decide (0 < r1.2 + r2.2 + r3.2))

/-! Node.update and Node.setProps (vos.py lines 167-188 and 492-507)
refresh the props dictionary from the properties elements of the XML
document (later assignments overwrite earlier ones) and re-derive the
cached groupread and groupwrite fields with default empty string. -/

def setPropsBlock (d : List (String × Option String)) (block : List PropE) :
    List (String × Option String) :=
  block.foldl (fun d p => dictSet d p.name (some p.text)) d

def setPropsAll (d : List (String × Option String)) (blocks : List (List PropE)) :
    List (String × Option String) :=
  blocks.foldl setPropsBlock d

def nodeUpdate (n : VNode) : VNode :=
  let props1 := setPropsAll n.props n.blocks
  { n with props := props1
         , groupwrite := pyGetD props1 "groupwrite" (some "")
         , groupread := pyGetD props1 "groupread" (some "") }

/-! Node.setattr (vos.py lines 207-267), restricted to the st_mode
computation, which depends only on the node type and the props
dictionary: directory or regular flag, always rwx for the owner, group
write iff the groupwrite property differs from the string NONE, group
read and execute iff the groupread property differs from NONE, other
read and execute iff the ispublic property equals the string true. -/

def stMode (n : VNode) : Nat :=
  let base := if n.typ = "vos:ContainerNode" then S_IFDIR else S_IFREG
  let m1 := base ||| 0o700
  let m2 := if pyGetD n.props "groupwrite" (some "NONE") ≠ some "NONE" then m1 ||| S_IWGRP else m1
  let m3 := if pyGetD n.props "groupread" (some "NONE") ≠ some "NONE" then m2 ||| 0o050 else m2
  if pyGetD n.props "ispublic" (some "false") = some "true" then m3 ||| 0o005 else m3

/-! Client.getNode pagination (vos.py lines 750-781).  For a container
node with limit positive, the client repeatedly re-issues the node GET
with the query parameter uri set to the last child added, and walks the
nodes elements of each returned page, adding every child whose uri
differs from the current continuation uri and advancing the continuation
to the child just added; the loop stops when a page adds nothing.  The
server is modelled as a page function from the continuation uri to the
advertised child uris of that page; the well-behaved server of the spec
advertises a fixed duplicate-free list and answers a continuation
request with the contiguous window starting at the named child.  The
while loop is modelled with explicit fuel; the proofs show the fuel is
never exhausted for a well-behaved server. -/

def uriIdx (u : String) : List String → Nat
  | [] => 0
  | x :: xs => if x = u then 0 else uriIdx u xs + 1

def pageOf (children : List String) (k : Nat) : Option String → List String
  | none => children.take k
  | some u => (children.drop (uriIdx u children)).take k

def procPage (next : Option String) : List String → List String × Option String
  | [] => ([], next)
  | c :: rest =>
    if some c ≠ next then
      let r := procPage (some c) rest
      (c :: r.1, r.2)
    else procPage next rest

def loadChildren (page : Option String → List String) :
    Nat → List String → Option String → Option (List String)
  | 0, _, _ => none
  | fuel + 1, acc, next =>
    let r := procPage next (page next)
    if r.1 = [] then some acc
    else loadChildren page fuel (acc ++ r.1) r.2

def getNodeChildren (children : List String) (k fuel : Nat) : Option (List String) :=
  loadChildren (pageOf children k) fuel [] none

/-! Client.fixURI (vos.py lines 725-747) and the urlparse helper class
(vos.py lines 26-43), embedded over List Char so that character-level
reasoning is possible.  The urlparse regex (scheme):(//netloc)(path) is
deterministic: the scheme group matches the longest leading letter run
only when a colon follows it, the netloc group consumes a leading double
slash up to the next slash, and the path group is the rest of the line
(the dot of the regex stops at a newline).  basenameL and normpathL are
the Python 2 posixpath basename and normpath algorithms, stripSlash is
str.strip with the slash character, and validName is the anchored
character-class regex used for the leaf name.  The VOSpace server
constant is the class attribute used when the uri has no authority. -/

def VOSpaceServerHost : List Char := ['c','a','d','c','.','n','r','c','.','c','a','!','v','o','s','p','a','c','e']

structure URLParts where
  scheme : Option (List Char)
  netloc : Option (List Char)
  path : List Char
deriving DecidableEq

def parseScheme (s : List Char) : Option (List Char) × List Char :=
  match s.dropWhile Char.isAlpha with
  | ':' :: r => (some (s.takeWhile Char.isAlpha), r)
  | _ => (none, s)

def parseNetloc (s : List Char) : Option (List Char) × List Char :=
  match s with
  | '/' :: '/' :: r => (some (r.takeWhile (fun c => c ≠ '/')), r.dropWhile (fun c => c ≠ '/'))
  | _ => (none, s)

def urlparseL (s : List Char) : URLParts :=
  let ps := parseScheme s
  let pn := parseNetloc ps.2
  { scheme := ps.1, netloc := pn.1, path := pn.2.takeWhile (fun c => c ≠ '\n') }

def basenameL (s : List Char) : List Char :=
  (s.reverse.takeWhile (fun c => c ≠ '/')).reverse

def stripSlash (s : List Char) : List Char :=
  ((s.dropWhile (fun c => c = '/')).reverse.dropWhile (fun c => c = '/')).reverse

def splitSlash : List Char → List (List Char)
  | [] => [[]]
  | c :: r =>
    if c = '/' then [] :: splitSlash r
    else
      match splitSlash r with
      | h :: t => (c :: h) :: t
      | [] => [[c]]

def joinSlash : List (List Char) → List Char
  | [] => []
  | [x] => x
  | x :: y :: t => x ++ '/' :: joinSlash (y :: t)

def npFold (initialSlashes : Nat) : List (List Char) → List (List Char) → List (List Char)
  | acc, [] => acc
  | acc, comp :: rest =>
    if comp = [] ∨ comp = ['.'] then npFold initialSlashes acc rest
    else if comp ≠ ['.', '.'] ∨ (initialSlashes = 0 ∧ acc = [])
        ∨ (acc ≠ [] ∧ acc.getLast? = some ['.', '.']) then
      npFold initialSlashes (acc ++ [comp]) rest
    else if acc ≠ [] then npFold initialSlashes acc.dropLast rest
    else npFold initialSlashes acc rest

def normpathL (path : List Char) : List Char :=
  if path = [] then ['.']
  else
    let initialSlashes : Nat :=
      if path.take 1 = ['/'] then
        if path.take 2 = ['/', '/'] ∧ path.take 3 ≠ ['/', '/', '/'] then 2 else 1
      else 0
    let newComps := npFold initialSlashes [] (splitSlash path)
    let joined := List.replicate initialSlashes '/' ++ joinSlash newComps
    if joined = [] then ['.'] else joined

def allowChar (c : Char) : Bool :=
  c.isAlphanum || c = '_' || c = '-' || c = '(' || c = ')' || c = '=' || c = '+' ||
  c = '!' || c = ',' || c = ';' || c = ':' || c = '@' || c = '&' || c = '*' ||
  c = '$' || c = '.' || c = '~'

def validName (s : List Char) : Bool := s.all allowChar

inductive FixErr where
  | invalidURI (uri : List Char)
  | illegalName (filename : List Char)
deriving DecidableEq

def vosColon : List Char := ['v', 'o', 's', ':']

def hostOf (netloc : Option (List Char)) : List Char :=
  match netloc with
  | none => VOSpaceServerHost
  | some nl => if nl = [] then VOSpaceServerHost else nl

def fixURI (root : List Char) (uri0 : List Char) : Except FixErr (List Char) :=
  let uri := if uri0.take 4 ≠ vosColon then root ++ uri0 else uri0
  let parts := urlparseL uri
  if parts.scheme ≠ some ['v', 'o', 's'] then Except.error (.invalidURI uri)
  else
    let filename := basenameL parts.path
    if validName filename = false then Except.error (.illegalName filename)
    else
      let host := hostOf parts.netloc
      let path := stripSlash (normpathL parts.path)
      Except.ok (['v', 'o', 's', ':', '/', '/'] ++ host ++ '/' :: path)

def effPath (root : List Char) (uri0 : List Char) : List Char :=
  (urlparseL (if uri0.take 4 ≠ vosColon then root ++ uri0 else uri0)).path

/-! Concrete nodes used in counterexamples and witnesses. -/

def dataNodeWith (x : String) : VNode :=
  { typ := "vos:DataNode"
  , blocks := [[mkProp "ispublic" "false", mkProp "groupread" x, mkProp "groupwrite" x]]
  , props := [("ispublic", some "false"), ("groupread", some x), ("groupwrite", some x)]
  , groupread := some x
  , groupwrite := some x }

def twoBlocksNode : VNode :=
  { typ := "vos:DataNode"
  , blocks := [[mkProp "a" "1"], []]
  , props := [("a", some "1")]
  , groupread := some ""
  , groupwrite := some "" }

end VOS

namespace VOS

/-! Theorems for claims C9, C10, C7 and C3. -/

/-- C9: Client.open coerces every string-valued mode argument to
read-only: whenever mode is a string (including "w"), the resulting HTTP
method is GET regardless of the content of the string, unless head=true
forces HEAD. -/
theorem C9_open_string_mode (s : String) (head : Bool) :
    openMethod (PyMode.str s) head = some (if head then "HEAD" else "GET") := by
  cases head <;> rfl

/-- C10: VOFile.seek mutates only the logical file position and performs
no network interaction (the result is the same record with every field
other than fpos unchanged, and the embedding of seek is a pure state
update): SEEK_SET sets the position to offset, SEEK_CUR adds offset, and
SEEK_END sets the position to size minus offset. -/
theorem C10_seek_frame (st : VOFileState) (offset : Int) :
    seek st offset SEEK_SET = some { st with fpos := offset }
    ∧ seek st offset SEEK_CUR = some { st with fpos := st.fpos + offset }
    ∧ (∀ s : Int, st.size = some s →
        seek st offset SEEK_END = some { st with fpos := s - offset }) := by
  refine ⟨rfl, rfl, fun s hs => ?_⟩
  simp [seek, SEEK_CUR, SEEK_SET, SEEK_END, hs]

/-- Witness for C10 at a concrete state: seeking 7 bytes back from the
declared end of a 100-byte stream puts the position at 93. -/
theorem C10_seek_frame_witness :
    seek seekTestState 7 SEEK_END = some { seekTestState with fpos := 93 } :=
  (C10_seek_frame seekTestState 7).2.2 100 rfl

/-- C7 (code bug): the claim says transport-failure exceptions during
connect are retried for up to 1200 seconds, but the HTTPException handler
in the source evaluates the undefined name logggin, so the first
transport failure raises NameError immediately and no retry ever happens;
later attempts are never consumed. -/
theorem C7_connect_retry_bug (host : String) (attempt : Nat → ConnectOutcome)
    (h : attempt 0 = ConnectOutcome.httpException) :
    getConnection host attempt = Except.error ConnErr.nameError := by
  simp [getConnection, h]

/-- Witness for C7: a connection whose every attempt raises HTTPException
fails at once with the NameError, instead of retrying. -/
theorem C7_connect_retry_bug_witness :
    getConnection "www.cadc.hia.nrc.gc.ca" (fun _ => ConnectOutcome.httpException)
      = Except.error ConnErr.nameError :=
  C7_connect_retry_bug _ _ rfl

/-- C3 counterexample: the claim states that the default acceptance set of
close contains 416 so that a 416 response on close raises no error; in
the source, close passes the tuple (200, 201, 202, 206, 302, 303, 503),
416 is not in it, and a 416 response on close raises an I/O error. -/
theorem C3_counterexample :
    close { closed := false, url := "https://h/x" }
        { status := 416, body := "", reason := "" }
      = Except.error (VOErr.ioErr 416 "" "https://h/x") := by rfl

/-- C3 (amended): close runs checkstatus with the default acceptance set
(200, 201, 202, 206, 302, 303, 503) (416 is absent, so 416 on close
raises an I/O error); every accepted status makes close succeed, and
non-accepted statuses raise: 404 a not-found error, 401 a
permission-denied error, 409 with a body containing DuplicateNode a
file-exists error, 409 without it an I/O error carrying the status 409,
the empty string (the DuplicateNode search has already consumed the
response body) and the url, and anything else an I/O error carrying the
status, the response body, and the url. -/
theorem C3_close_status_dispatch (st : VOFileConn) (resp : HttpResponse)
    (hopen : st.closed = false) :
    (resp.status ∈ closeDefaultCodes →
        close st resp = .ok ({ st with closed := true }, some true))
    ∧ (resp.status = 404 → close st resp = .error (.nodeNotFound st.url))
    ∧ (resp.status = 401 → close st resp = .error (.notAuthorized st.url))
    ∧ (resp.status = 409 → strContainsSub resp.body "DuplicateNode" = true →
        close st resp = .error (.fileExists st.url))
    ∧ (resp.status = 409 → strContainsSub resp.body "DuplicateNode" = false →
        close st resp = .error (.ioErr 409 "" st.url))
    ∧ (resp.status ∉ closeDefaultCodes → resp.status ≠ 404 → resp.status ≠ 401 →
        resp.status ≠ 409 →
        close st resp = .error (.ioErr resp.status resp.body st.url)) := by
  refine ⟨fun hmem => ?_, fun h404 => ?_, fun h401 => ?_, fun h409 hdup => ?_,
    fun h409 hdup => ?_, fun hnot h404 h401 h409 => ?_⟩
  · simp [close, checkstatus, hopen, hmem]
  · have hnot : resp.status ∉ closeDefaultCodes := by
      simp [closeDefaultCodes, h404]
    simp [close, checkstatus, hopen, hnot, h404, closeDefaultCodes]
  · have hnot : resp.status ∉ closeDefaultCodes := by
      simp [closeDefaultCodes, h401]
    simp [close, checkstatus, hopen, hnot, h401, closeDefaultCodes]
  · have hnot : resp.status ∉ closeDefaultCodes := by
      simp [closeDefaultCodes, h409]
    simp [close, checkstatus, hopen, hnot, h409, hdup, closeDefaultCodes]
  · have hnot : resp.status ∉ closeDefaultCodes := by
      simp [closeDefaultCodes, h409]
    simp [close, checkstatus, hopen, hnot, h409, hdup, closeDefaultCodes]
  · simp [close, checkstatus, hopen, hnot, h404, h401, h409]

theorem copyLoop_chunksOf (n : Nat) (l : List Nat) :
    copyLoop (chunksOf n l) = (l.length, l) := by
  induction l using chunksOf.induct n with
  | case1 => simp [chunksOf, copyLoop]
  | case2 b bs ih =>
    rw [chunksOf, copyLoop.eq_def]
    simp only [ih, List.length_cons, List.length_take, List.length_drop,
      List.cons_append, List.append_assoc, List.take_append_drop]
    rw [if_neg (by simp)]
    simp only [Prod.mk.injEq]
    exact ⟨by omega, trivial⟩

/-- C2: after a completed copy, if sendMD5 is true the stored MD5
property of the node (defaulting to the MD5 of the empty string when the
server has none) is compared with the incrementally computed MD5 of the
transferred bytes, a mismatch raises an error with errno EIO and a match
returns the hex digest string; if sendMD5 is false the total byte count
written is compared with the expected source size, a mismatch raises an
error with errno EIO and a match returns the byte count. -/
theorem C2_copy_verification (md5hex : List Nat → String) (src : List Nat)
    (storedMD5 : Option String) (srcSize : Nat) (srcName : String) :
    (copyVerify md5hex src storedMD5 true srcSize srcName
      = if storedMD5.getD emptyMD5 = md5hex src
        then Except.ok (CopyOut.digest (md5hex src))
        else Except.error (PyErr.osErr EIO "MD5s do not match" srcName))
    ∧ (copyVerify md5hex src storedMD5 false srcSize srcName
      = if src.length = srcSize
        then Except.ok (CopyOut.size src.length)
        else Except.error (PyErr.ioErr EIO "sizes do not match" srcName)) := by
  constructor
  · unfold copyVerify
    rw [copyLoop_chunksOf]
    by_cases h : storedMD5.getD emptyMD5 = md5hex src <;> simp [h]
  · unfold copyVerify
    rw [copyLoop_chunksOf]
    by_cases h : src.length = srcSize <;> simp [h]

/-- C1 counterexample: on a node with two properties elements and no
property named k, changeProp appends the new property under the LAST
properties element, not under the first one as the claim states: the
first block of the result is unchanged and the new property sits in the
second block. -/
theorem C1_counterexample :
    (changeProp twoBlocksNode "k" (some "v")).map (fun r => (r.1.blocks, r.2))
      = some ([[mkProp "a" "1"], [mkProp "k" "v"]], 1) := by decide

/-- C6 counterexample: a chmod whose mode bits re-apply exactly the
current ispublic, groupread and groupwrite values leaves the node
completely unchanged yet returns true, refuting the claim that chmod
returns true only when some property value actually changed. -/
theorem C6_counterexample :
    chmod (dataNodeWith "g") 0o060 = some (dataNodeWith "g", true) := by decide

/-- C5 counterexample: starting from ispublic=false, groupread=g,
groupwrite=g, chmod with mode 0o750 is followed by an st_mode computation
(after refreshing the props dictionary from the XML) that yields
IFREG combined with 0o770, not IFREG combined with 0o750 as the claim
states: the cleared groupwrite value is the empty string, which differs
from NONE, so the group-write bit stays set. -/
theorem C5_counterexample :
    (chmod (dataNodeWith "g") 0o750).map (fun r => stMode (nodeUpdate r.1))
      = some (S_IFREG ||| 0o770)
    ∧ S_IFREG ||| 0o770 ≠ S_IFREG ||| 0o750 := by decide

theorem dictGet_dictSet_self (d : List (String × Option String)) (k : String)
    (v : Option String) : dictGet (dictSet d k v) k = some v := by
  induction d with
  | nil => simp [dictGet, dictSet]
  | cons e rest ih =>
    obtain ⟨k1, v1⟩ := e
    by_cases h : k1 = k <;> simp [dictGet, dictSet, h, ih]

theorem dictGet_dictSet_ne (d : List (String × Option String)) (k k1 : String)
    (v : Option String) (h : k1 ≠ k) : dictGet (dictSet d k1 v) k = dictGet d k := by
  induction d with
  | nil => simp [dictGet, dictSet, h]
  | cons e rest ih =>
    obtain ⟨k2, v2⟩ := e
    by_cases h2 : k2 = k1 <;> by_cases h3 : k2 = k <;>
      simp_all [dictGet, dictSet]

theorem procBlock_snd_eq (key : String) (value : Option String) (b : List PropE) :
    (procBlock key value b).2 = b.any (fun p => p.name = key) := by
  induction b with
  | nil => rfl
  | cons p rest ih =>
    by_cases h : p.name = key <;> simp [procBlock, h, ih]

theorem procBlocks_snd_eq (key : String) (value : Option String)
    (bs : List (List PropE)) :
    (procBlocks key value bs).2 = bs.any (fun b => b.any (fun p => p.name = key)) := by
  induction bs with
  | nil => rfl
  | cons b rest ih => simp [procBlocks, procBlock_snd_eq, ih]

theorem procBlock_fst_not_found (key : String) (value : Option String)
    (b : List PropE) (h : (procBlock key value b).2 = false) :
    (procBlock key value b).1 = b := by
  induction b with
  | nil => rfl
  | cons p rest ih =>
    by_cases hp : p.name = key
    · simp [procBlock, hp] at h
    · simp only [procBlock, if_neg hp] at h ⊢
      simp [ih h]

theorem procBlocks_fst_not_found (key : String) (value : Option String)
    (bs : List (List PropE)) (h : (procBlocks key value bs).2 = false) :
    (procBlocks key value bs).1 = bs := by
  induction bs with
  | nil => rfl
  | cons b rest ih =>
    simp only [procBlocks, Bool.or_eq_false_iff] at h
    simp [procBlocks, procBlock_fst_not_found key value b h.1, ih h.2]

theorem procBlock_set_text (key : String) (v : String) (b : List PropE) :
    ∀ p ∈ (procBlock key (some v) b).1, p.name = key → p.text = v := by
  induction b with
  | nil => simp [procBlock]
  | cons p rest ih =>
    by_cases hp : p.name = key
    · simp only [procBlock, if_pos hp]
      intro q hq
      rcases List.mem_cons.mp hq with h1 | h1
      · subst h1; intro _; rfl
      · exact ih q h1
    · simp only [procBlock, if_neg hp]
      intro q hq
      rcases List.mem_cons.mp hq with h1 | h1
      · subst h1; intro hk; exact absurd hk hp
      · exact ih q h1

theorem procBlocks_set_text (key : String) (v : String) (bs : List (List PropE)) :
    ∀ b ∈ (procBlocks key (some v) bs).1, ∀ p ∈ b, p.name = key → p.text = v := by
  induction bs with
  | nil => simp [procBlocks]
  | cons b rest ih =>
    intro b1 hb1
    rcases List.mem_cons.mp hb1 with h1 | h1
    · subst h1; exact procBlock_set_text key v b
    · exact ih b1 h1

theorem procBlock_nil_mark (key : String) (b : List PropE) :
    ∀ p ∈ (procBlock key none b).1, p.name = key → p.xsiNil = true ∧ p.text = "" := by
  induction b with
  | nil => simp [procBlock]
  | cons p rest ih =>
    by_cases hp : p.name = key
    · simp only [procBlock, if_pos hp]
      intro q hq
      rcases List.mem_cons.mp hq with h1 | h1
      · subst h1; intro _; exact ⟨rfl, rfl⟩
      · exact ih q h1
    · simp only [procBlock, if_neg hp]
      intro q hq
      rcases List.mem_cons.mp hq with h1 | h1
      · subst h1; intro hk; exact absurd hk hp
      · exact ih q h1

theorem procBlocks_nil_mark (key : String) (bs : List (List PropE)) :
    ∀ b ∈ (procBlocks key none bs).1, ∀ p ∈ b,
      p.name = key → p.xsiNil = true ∧ p.text = "" := by
  induction bs with
  | nil => simp [procBlocks]
  | cons b rest ih =>
    intro b1 hb1
    rcases List.mem_cons.mp hb1 with h1 | h1
    · subst h1; exact procBlock_nil_mark key b
    · exact ih b1 h1

theorem procBlock_found_mem (key : String) (value : Option String) (b : List PropE)
    (h : (procBlock key value b).2 = true) :
    ∃ p ∈ (procBlock key value b).1, p.name = key := by
  induction b with
  | nil => simp [procBlock] at h
  | cons p rest ih =>
    by_cases hp : p.name = key
    · refine ⟨applyChange value p, ?_, ?_⟩
      · simp [procBlock, if_pos hp]
      · cases value <;> simpa [applyChange] using hp
    · simp only [procBlock, if_neg hp] at h ⊢
      obtain ⟨q, hq, hqk⟩ := ih h
      exact ⟨q, List.mem_cons_of_mem _ hq, hqk⟩

theorem procBlocks_found_mem (key : String) (value : Option String)
    (bs : List (List PropE)) (h : (procBlocks key value bs).2 = true) :
    ∃ b ∈ (procBlocks key value bs).1, ∃ p ∈ b, p.name = key := by
  induction bs with
  | nil => simp [procBlocks] at h
  | cons b rest ih =>
    simp only [procBlocks, Bool.or_eq_true] at h
    rcases h with h | h
    · obtain ⟨p, hp, hpk⟩ := procBlock_found_mem key value b h
      exact ⟨(procBlock key value b).1, by simp [procBlocks], p, hp, hpk⟩
    · obtain ⟨b1, hb1, hp⟩ := ih h
      exact ⟨b1, by simp [procBlocks, hb1], hp⟩

theorem appendLast_mem (p : PropE) (bs : List (List PropE)) (b : List PropE)
    (h : b ∈ appendLast p bs) : b ∈ bs ∨ ∃ b0 ∈ bs, b = b0 ++ [p] := by
  induction bs with
  | nil => simp [appendLast] at h
  | cons b1 rest ih =>
    cases rest with
    | nil =>
      simp only [appendLast, List.mem_singleton] at h
      exact Or.inr ⟨b1, by simp, h⟩
    | cons b2 rest2 =>
      simp only [appendLast, List.mem_cons] at h
      rcases h with h | h
      · exact Or.inl (by simp [h])
      · rcases ih h with h1 | ⟨b0, hb0, he⟩
        · exact Or.inl (List.mem_cons_of_mem _ h1)
        · exact Or.inr ⟨b0, List.mem_cons_of_mem _ hb0, he⟩

theorem appendLast_exists (p : PropE) (bs : List (List PropE)) (h : bs ≠ []) :
    ∃ b ∈ appendLast p bs, p ∈ b := by
  induction bs with
  | nil => exact absurd rfl h
  | cons b1 rest ih =>
    cases rest with
    | nil => exact ⟨b1 ++ [p], by simp [appendLast], by simp⟩
    | cons b2 rest2 =>
      obtain ⟨b, hb, hpb⟩ := ih (by simp)
      exact ⟨b, by simp [appendLast, hb], hpb⟩

theorem appendLast_ne_nil (p : PropE) (bs : List (List PropE)) (h : bs ≠ []) :
    appendLast p bs ≠ [] := by
  cases bs with
  | nil => exact absurd rfl h
  | cons b rest => cases rest <;> simp [appendLast]

theorem procBlocks_fst_ne_nil (key : String) (value : Option String)
    (bs : List (List PropE)) (h : bs ≠ []) : (procBlocks key value bs).1 ≠ [] := by
  cases bs with
  | nil => exact absurd rfl h
  | cons b rest => simp [procBlocks]

theorem setPropsBlock_no_key (k : String) (b : List PropE)
    (hb : ∀ p ∈ b, p.name ≠ k) :
    ∀ d, dictGet (setPropsBlock d b) k = dictGet d k := by
  induction b with
  | nil => intro d; rfl
  | cons p rest ih =>
    intro d
    have : setPropsBlock d (p :: rest) = setPropsBlock (dictSet d p.name (some p.text)) rest := rfl
    rw [this, ih (fun q hq => hb q (List.mem_cons_of_mem _ hq)),
      dictGet_dictSet_ne _ _ _ _ (hb p (by simp))]

theorem setPropsBlock_const (k v : String) (b : List PropE)
    (hall : ∀ p ∈ b, p.name = k → p.text = v)
    (hex : ∃ p ∈ b, p.name = k) :
    ∀ d, dictGet (setPropsBlock d b) k = some (some v) := by
  induction b with
  | nil => simp at hex
  | cons p rest ih =>
    intro d
    have hstep : setPropsBlock d (p :: rest) = setPropsBlock (dictSet d p.name (some p.text)) rest := rfl
    by_cases hrest : ∃ q ∈ rest, q.name = k
    · rw [hstep]
      exact ih (fun q hq => hall q (List.mem_cons_of_mem _ hq)) hrest _
    · have hp : p.name = k := by
        obtain ⟨q, hq, hqk⟩ := hex
        rcases List.mem_cons.mp hq with h1 | h1
        · exact h1 ▸ hqk
        · exact absurd ⟨q, h1, hqk⟩ hrest
      have hpt : p.text = v := hall p (by simp) hp
      rw [hstep, setPropsBlock_no_key k rest (fun q hq hqk => hrest ⟨q, hq, hqk⟩) _,
        hp, hpt, dictGet_dictSet_self]

theorem setPropsAll_no_key (k : String) (bs : List (List PropE))
    (hb : ∀ b ∈ bs, ∀ p ∈ b, p.name ≠ k) :
    ∀ d, dictGet (setPropsAll d bs) k = dictGet d k := by
  induction bs with
  | nil => intro d; rfl
  | cons b rest ih =>
    intro d
    have hstep : setPropsAll d (b :: rest) = setPropsAll (setPropsBlock d b) rest := rfl
    rw [hstep, ih (fun b1 hb1 => hb b1 (List.mem_cons_of_mem _ hb1)),
      setPropsBlock_no_key k b (hb b (by simp))]

theorem setPropsAll_const (k v : String) (bs : List (List PropE))
    (hall : ∀ b ∈ bs, ∀ p ∈ b, p.name = k → p.text = v)
    (hex : ∃ b ∈ bs, ∃ p ∈ b, p.name = k) :
    ∀ d, dictGet (setPropsAll d bs) k = some (some v) := by
  induction bs with
  | nil => simp at hex
  | cons b rest ih =>
    intro d
    have hstep : setPropsAll d (b :: rest) = setPropsAll (setPropsBlock d b) rest := rfl
    by_cases hrest : ∃ b1 ∈ rest, ∃ p ∈ b1, p.name = k
    · rw [hstep]
      exact ih (fun b1 hb1 => hall b1 (List.mem_cons_of_mem _ hb1)) hrest _
    · have hbex : ∃ p ∈ b, p.name = k := by
        obtain ⟨b1, hb1, q, hq, hqk⟩ := hex
        rcases List.mem_cons.mp hb1 with h1 | h1
        · exact h1 ▸ ⟨q, hq, hqk⟩
        · exact absurd ⟨b1, h1, q, hq, hqk⟩ hrest
      rw [hstep, setPropsAll_no_key k rest (fun b1 hb1 q hq hqk => hrest ⟨b1, hb1, q, hq, hqk⟩) _]
      exact setPropsBlock_const k v b (hall b (by simp)) hbex d

theorem changeProp_some_found (n : VNode) (k v : String)
    (h : (procBlocks k (some v) n.blocks).2 = true) :
    changeProp n k (some v)
      = some ({ n with blocks := (procBlocks k (some v) n.blocks).1 }, 1) := by
  simp [changeProp, h]

theorem changeProp_some_not_found (n : VNode) (k v : String)
    (h : (procBlocks k (some v) n.blocks).2 = false) (hb : n.blocks ≠ []) :
    changeProp n k (some v)
      = some ({ n with blocks := appendLast (mkProp k v) n.blocks }, 1) := by
  have hfst := procBlocks_fst_not_found k (some v) n.blocks h
  obtain ⟨nt, nb, np, ngr, ngw⟩ := n
  simp only at h hfst hb ⊢
  cases nb with
  | nil => exact absurd rfl hb
  | cons b bs => simp [changeProp, h, hfst]

theorem changeProp_none_found (n : VNode) (k : String)
    (h : (procBlocks k none n.blocks).2 = true) :
    changeProp n k none
      = some ({ n with
          blocks := (procBlocks k none n.blocks).1,
          props := dictSet n.props k none }, 0) := by
  simp [changeProp, h]

theorem changeProp_none_not_found (n : VNode) (k : String)
    (h : (procBlocks k none n.blocks).2 = false) :
    changeProp n k none = some (n, 0) := by
  have hfst := procBlocks_fst_not_found k none n.blocks h
  simp [changeProp, h, hfst]

theorem changeProp_total (n : VNode) (k : String) (value : Option String)
    (hb : n.blocks ≠ []) :
    ∃ n1 c, changeProp n k value = some (n1, c) ∧ n1.blocks ≠ []
      ∧ (value.isSome = true → c = 1) := by
  cases value with
  | none =>
    cases h : (procBlocks k none n.blocks).2 with
    | false => exact ⟨n, 0, changeProp_none_not_found n k h, hb, by simp⟩
    | true =>
      refine ⟨{ n with
          blocks := (procBlocks k none n.blocks).1,
          props := dictSet n.props k none }, 0, changeProp_none_found n k h, ?_, by simp⟩
      simpa using procBlocks_fst_ne_nil k none n.blocks hb
  | some v =>
    cases h : (procBlocks k (some v) n.blocks).2 with
    | false =>
      refine ⟨{ n with blocks := appendLast (mkProp k v) n.blocks }, 1,
        changeProp_some_not_found n k v h hb, ?_, fun _ => rfl⟩
      simpa using appendLast_ne_nil (mkProp k v) n.blocks hb
    | true =>
      refine ⟨{ n with blocks := (procBlocks k (some v) n.blocks).1 }, 1,
        changeProp_some_found n k v h, ?_, fun _ => rfl⟩
      simpa using procBlocks_fst_ne_nil k (some v) n.blocks hb

/-- C1 (amended): on any node that has at least one properties element,
changeProp(k, v) with a non-null v sets every existing property named k
to v (or, when none exists, appends a new property element under the
LAST properties element of the document) and returns 1, so that a
subsequent refresh of the props dictionary reads back v; changeProp(k,
null) on an existing property marks every property named k with the nil
marker, empties its text and returns 0; changeProp(k, null) when no
property named k exists is a no-op returning 0.  (The original claim
said the new property is appended under the first properties element;
the source appends under the last one, and a node with no properties
element at all makes the append crash with NameError.) -/
theorem C1_changeProp (n : VNode) (k : String) (hb : n.blocks ≠ []) :
    (∀ v : String, ∃ n1 : VNode,
        changeProp n k (some v) = some (n1, 1)
        ∧ dictGet (nodeUpdate n1).props k = some (some v)
        ∧ (hasPropNamed n k = false →
            n1.blocks = appendLast (mkProp k v) n.blocks))
    ∧ (hasPropNamed n k = true → ∃ n1 : VNode,
        changeProp n k none = some (n1, 0)
        ∧ ∀ b ∈ n1.blocks, ∀ p ∈ b, p.name = k → p.xsiNil = true ∧ p.text = "")
    ∧ (hasPropNamed n k = false → changeProp n k none = some (n, 0)) := by
  have hhas : ∀ value : Option String,
      (procBlocks k value n.blocks).2 = hasPropNamed n k :=
    fun value => procBlocks_snd_eq k value n.blocks
  refine ⟨fun v => ?_, fun hfound => ?_, fun hnf => ?_⟩
  · cases hf : hasPropNamed n k with
    | false =>
      have h2 : (procBlocks k (some v) n.blocks).2 = false := (hhas _).trans hf
      have hnone : ∀ b ∈ n.blocks, ∀ p ∈ b, p.name ≠ k := by
        intro b hbmem p hp hpk
        have htr : hasPropNamed n k = true := by
          simp only [hasPropNamed, List.any_eq_true]
          exact ⟨b, hbmem, p, hp, by simp [hpk]⟩
        rw [hf] at htr
        exact Bool.false_ne_true htr
      refine ⟨_, changeProp_some_not_found n k v h2 hb, ?_, fun _ => rfl⟩
      show dictGet (setPropsAll n.props (appendLast (mkProp k v) n.blocks)) k
        = some (some v)
      apply setPropsAll_const
      · intro b hbm p hp hpk
        rcases appendLast_mem (mkProp k v) n.blocks b hbm with h1 | ⟨b0, hb0, he⟩
        · exact absurd hpk (hnone b h1 p hp)
        · subst he
          rcases List.mem_append.mp hp with h2m | h2m
          · exact absurd hpk (hnone b0 hb0 p h2m)
          · rw [List.mem_singleton.mp h2m]; rfl
      · obtain ⟨b, hbm, hpb⟩ := appendLast_exists (mkProp k v) n.blocks hb
        exact ⟨b, hbm, mkProp k v, hpb, rfl⟩
    | true =>
      have h2 : (procBlocks k (some v) n.blocks).2 = true := (hhas _).trans hf
      refine ⟨_, changeProp_some_found n k v h2, ?_, fun hff => by simp [hf] at hff⟩
      show dictGet (setPropsAll n.props (procBlocks k (some v) n.blocks).1) k
        = some (some v)
      exact setPropsAll_const k v _ (procBlocks_set_text k v n.blocks)
        (procBlocks_found_mem k (some v) n.blocks h2) n.props
  · have h2 : (procBlocks k none n.blocks).2 = true := (hhas _).trans hfound
    exact ⟨{ n with
        blocks := (procBlocks k none n.blocks).1,
        props := dictSet n.props k none },
      changeProp_none_found n k h2, procBlocks_nil_mark k n.blocks⟩
  · have h2 : (procBlocks k none n.blocks).2 = false := (hhas _).trans hnf
    exact changeProp_none_not_found n k h2

/-- Witness for C1: on the concrete data node with properties ispublic,
groupread and groupwrite, setting a fresh property named newkey appends
it under the last properties element, returns 1, and reads back. -/
theorem C1_changeProp_witness :
    ∃ n1 : VNode,
      changeProp (dataNodeWith "g") "newkey" (some "zz") = some (n1, 1)
      ∧ dictGet (nodeUpdate n1).props "newkey" = some (some "zz")
      ∧ (hasPropNamed (dataNodeWith "g") "newkey" = false →
          n1.blocks = appendLast (mkProp "newkey" "zz") (dataNodeWith "g").blocks) :=
  (C1_changeProp (dataNodeWith "g") "newkey" (by decide)).1 "zz"

/-- C6 (amended): chmod always returns true when it completes: the
change counter of changeProp counts assignments (it reports 1 for any
non-null value set even when the new value equals the old one), and
chmod always assigns a non-null ispublic value, so the summed counter is
always positive.  The original claim said chmod returns true only when a
property value actually changed. -/
theorem C6_chmod_always_true (n : VNode) (mode : Nat) (hb : n.blocks ≠ []) :
    ∃ n1 : VNode, chmod n mode = some (n1, true) := by
  obtain ⟨m1, c1, h1, hb1, hc1⟩ := changeProp_total n "ispublic"
      (some (if mode &&& S_IROTH ≠ 0 then "true" else "false")) hb
  have hc1e : c1 = 1 := hc1 rfl
  subst hc1e
  obtain ⟨m2, c2, h2, hb2, -⟩ := changeProp_total
      { m1 with groupread := (if mode &&& S_IRGRP ≠ 0 then m1.groupread else some "") }
      "groupread" (if mode &&& S_IRGRP ≠ 0 then m1.groupread else some "") hb1
  obtain ⟨m3, c3, h3, hb3, -⟩ := changeProp_total
      { m2 with groupwrite := (if mode &&& S_IWGRP ≠ 0 then m2.groupwrite else some "") }
      "groupwrite" (if mode &&& S_IWGRP ≠ 0 then m2.groupwrite else some "") hb2
  have hpos : 0 < 1 + c2 + c3 := by omega
  refine ⟨m3, ?_⟩
  simp only [chmod, setPublic, chrgrp, chwgrp, Option.bind_eq_bind']
  rw [h1]
  simp only [Option.some_bind]
  rw [h2]
  simp only [Option.some_bind]
  rw [h3]
  simp only [Option.some_bind]
  rw [decide_eq_true hpos]
  rfl

/-- Witness for C6: chmod with mode 0o444 on the concrete data node
completes and returns true. -/
theorem C6_chmod_always_true_witness :
    ∃ n1 : VNode, chmod (dataNodeWith "g") 0o444 = some (n1, true) :=
  C6_chmod_always_true (dataNodeWith "g") 0o444 (by decide)

/-- C5 (amended): starting from ispublic=false, groupread=X,
groupwrite=X with X not the string NONE, chmod(0o750) produces the
property mutations ispublic=false, groupread=X (kept), groupwrite=empty
string (cleared) in the XML, and a subsequent st_mode computation on the
refreshed node yields IFREG combined with 0o770: the group-write bit
stays set because setattr tests the groupwrite property against the
string NONE and the cleared value is the empty string, not NONE.  (The
original claim expected IFREG combined with 0o750.) -/
theorem C5_chmod_mode_bits (x : String) (hx : x ≠ "NONE") :
    ∃ n1 : VNode,
      chmod (dataNodeWith x) 0o750 = some (n1, true)
      ∧ n1.blocks
          = [[mkProp "ispublic" "false", mkProp "groupread" x, mkProp "groupwrite" ""]]
      ∧ stMode (nodeUpdate n1) = S_IFREG ||| 0o770 := by
  refine ⟨{ typ := "vos:DataNode"
          , blocks := [[mkProp "ispublic" "false", mkProp "groupread" x,
              mkProp "groupwrite" ""]]
          , props := [("ispublic", some "false"), ("groupread", some x),
              ("groupwrite", some x)]
          , groupread := some x
          , groupwrite := some "" }, ?_, rfl, ?_⟩
  · rfl
  · simp [stMode, nodeUpdate, setPropsAll, setPropsBlock, dictSet, dictGet,
      pyGetD, mkProp, hx]
    decide

/-- Witness for C5 at X equal to the string g. -/
theorem C5_chmod_mode_bits_witness :
    ∃ n1 : VNode,
      chmod (dataNodeWith "g") 0o750 = some (n1, true)
      ∧ n1.blocks
          = [[mkProp "ispublic" "false", mkProp "groupread" "g", mkProp "groupwrite" ""]]
      ∧ stMode (nodeUpdate n1) = S_IFREG ||| 0o770 :=
  C5_chmod_mode_bits "g" (by decide)

theorem procPage_cons (next : Option String) (c : String) (rest : List String) :
    procPage next (c :: rest)
      = if some c ≠ next then
          ((c :: (procPage (some c) rest).1), (procPage (some c) rest).2)
        else procPage next rest := rfl

theorem loadChildren_succ (page : Option String → List String) (fuel : Nat)
    (acc : List String) (next : Option String) :
    loadChildren page (fuel + 1) acc next
      = if (procPage next (page next)).1 = [] then some acc
        else loadChildren page fuel (acc ++ (procPage next (page next)).1)
          (procPage next (page next)).2 := rfl

theorem procPage_cons_all (t : List String) :
    ∀ (c : String) (next : Option String), List.Chain' (· ≠ ·) (c :: t) →
      some c ≠ next → procPage next (c :: t) = (c :: t, (c :: t).getLast?) := by
  induction t with
  | nil =>
    intro c next _ hne
    rw [procPage_cons, if_pos hne]
    rfl
  | cons d t2 ih =>
    intro c next hch hne
    obtain ⟨hcd, hch2⟩ := List.chain'_cons.mp hch
    have hdc : some d ≠ some c := by simpa using Ne.symm hcd
    have hr := ih d (some c) hch2 hdc
    rw [procPage_cons, if_pos hne, hr]
    simp

theorem uriIdx_of_getElem? (L : List String) :
    ∀ (j : Nat) (u : String), L.Nodup → L[j]? = some u → uriIdx u L = j := by
  induction L with
  | nil => intro j u _ h; simp at h
  | cons x xs ih =>
    intro j u hnd h
    have hx : x ∉ xs := (List.nodup_cons.mp hnd).1
    cases j with
    | zero =>
      simp only [List.getElem?_cons_zero, Option.some.injEq] at h
      simp [uriIdx, h]
    | succ j0 =>
      have h2 : xs[j0]? = some u := by simpa using h
      have hne : x ≠ u := by
        intro he
        subst he
        exact hx (List.getElem?_mem h2)
      simp [uriIdx, hne, ih j0 u (List.nodup_cons.mp hnd).2 h2]

theorem take_eq_take_min (L : List String) (m : Nat) :
    L.take m = L.take (min m L.length) := by
  rcases Nat.le_total m L.length with h | h
  · rw [Nat.min_eq_left h]
  · rw [Nat.min_eq_right h, List.take_of_length_le h, List.take_length]

theorem slice_chain' (L : List String) (hnd : L.Nodup) (j k : Nat) :
    List.Chain' (· ≠ ·) ((L.drop j).take k) :=
  List.Pairwise.chain'
    (List.Sublist.nodup ((List.take_sublist _ _).trans (List.drop_sublist _ _)) hnd)

theorem loadChildren_run (L : List String) (hnd : L.Nodup) (k : Nat) :
    ∀ (fuel j : Nat), j ≤ L.length → L.length + 2 - j ≤ fuel →
      ∃ m, j ≤ m ∧ m ≤ L.length ∧
        loadChildren (pageOf L k) fuel (L.take j) (L.take j).getLast? = some (L.take m) := by
  intro fuel
  induction fuel with
  | zero => intro j hj hf; omega
  | succ fuel ih =>
    intro j hj hf
    rw [loadChildren_succ]
    by_cases hj0 : j = 0
    · subst hj0
      simp only [List.take_zero, List.getLast?_nil]
      cases hp : L.take k with
      | nil =>
        refine ⟨0, Nat.le_refl _, by omega, ?_⟩
        have : pageOf L k none = [] := by simpa [pageOf] using hp
        simp [this, procPage]
      | cons c t =>
        have hnodup_take : (L.take k).Nodup :=
          List.Sublist.nodup (List.take_sublist _ _) hnd
        have hch : List.Chain' (· ≠ ·) (c :: t) := by
          rw [← hp]
          exact List.Pairwise.chain' hnodup_take
        have hproc := procPage_cons_all t c none hch (by simp)
        set j1 := min k L.length with hj1def
        have htk : L.take k = L.take j1 := take_eq_take_min L k
        have hj1le : j1 ≤ L.length := Nat.min_le_right _ _
        have hlen : j1 = (L.take k).length := by
          rw [List.length_take]
        have hj1ge : 1 ≤ j1 := by
          rw [hlen, hp]
          simp
        obtain ⟨m, hm1, hm2, hm3⟩ := ih j1 hj1le (by omega)
        refine ⟨m, by omega, hm2, ?_⟩
        have hct : c :: t = L.take j1 := by rw [← hp, htk]
        have hpg : pageOf L k none = c :: t := by simpa [pageOf] using hp
        rw [hpg, hproc]
        rw [if_neg (by simp)]
        rw [List.nil_append, hct]
        exact hm3
    · obtain ⟨j0, rfl⟩ : ∃ j0, j = j0 + 1 := ⟨j - 1, by omega⟩
      have hj0lt : j0 < L.length := by omega
      cases hu : L[j0]? with
      | none =>
        rw [List.getElem?_eq_getElem hj0lt] at hu
        exact Option.noConfusion hu
      | some u =>
        have hnext : (L.take (j0 + 1)).getLast? = some u := by
          rw [List.getLast?_take]
          simp [hu]
        rw [hnext]
        have hidx : uriIdx u L = j0 := uriIdx_of_getElem? L j0 u hnd hu
        have hgetu : L[j0] = u := by
          rw [List.getElem?_eq_getElem hj0lt] at hu
          exact Option.some.inj hu
        have hdrop : L.drop j0 = u :: L.drop (j0 + 1) := by
          rw [List.drop_eq_getElem_cons hj0lt, hgetu]
        cases k with
        | zero =>
          refine ⟨j0 + 1, Nat.le_refl _, hj, ?_⟩
          have : pageOf L 0 (some u) = [] := by simp [pageOf]
          simp [this, procPage]
        | succ k0 =>
          have hpage : pageOf L (k0 + 1) (some u) = u :: (L.drop (j0 + 1)).take k0 := by
            simp only [pageOf, hidx, hdrop, List.take_succ_cons]
          have hskip : procPage (some u) (u :: (L.drop (j0 + 1)).take k0)
              = procPage (some u) ((L.drop (j0 + 1)).take k0) := by
            rw [procPage_cons]
            simp
          cases hrest : (L.drop (j0 + 1)).take k0 with
          | nil =>
            refine ⟨j0 + 1, Nat.le_refl _, hj, ?_⟩
            rw [hpage, hskip, hrest]
            simp [procPage]
          | cons c t =>
            have hk0 : 0 < k0 := by
              rcases Nat.eq_zero_or_pos k0 with h0 | h0
              · subst h0; simp at hrest
              · exact h0
            have hcu : L[j0 + 1]? = some c := by
              have h1 : ((L.drop (j0 + 1)).take k0)[0]? = some c := by
                rw [hrest]
                simp
              rw [List.getElem?_take_of_lt hk0, List.getElem?_drop] at h1
              simpa using h1
            have hlt : j0 + 1 < L.length := by
              by_contra hge
              rw [List.getElem?_eq_none (by omega)] at hcu
              exact Option.noConfusion hcu
            have hne_cu : some c ≠ some u := by
              intro he
              have hceq : c = u := Option.some.inj he
              have hcu2 : L[j0]? = L[j0 + 1]? := by rw [hu, hcu, hceq]
              have := List.getElem?_inj hj0lt hnd hcu2
              omega
            have hch : List.Chain' (· ≠ ·) (c :: t) := by
              rw [← hrest]
              exact slice_chain' L hnd (j0 + 1) k0
            have hproc := procPage_cons_all t c (some u) hch hne_cu
            set j1 := min (j0 + 1 + k0) L.length with hj1def
            have hj1le : j1 ≤ L.length := Nat.min_le_right _ _
            have hadd : L.take (j0 + 1) ++ (c :: t) = L.take j1 := by
              rw [← hrest, ← List.take_add, take_eq_take_min L (j0 + 1 + k0), ← hj1def]
            have hlast : (c :: t).getLast? = (L.take j1).getLast? := by
              rw [← hadd, List.getLast?_append_of_ne_nil _ (by simp)]
            obtain ⟨m, hm1, hm2, hm3⟩ := ih j1 hj1le (by omega)
            refine ⟨m, by omega, hm2, ?_⟩
            rw [hpage, hskip, hrest, hproc]
            rw [if_neg (by simp)]
            rw [hadd, hlast]
            exact hm3

/-- C4: for a container fetched with positive limit, the pagination loop
(modelled with the well-behaved server of the spec, which advertises a
fixed duplicate-free ordered child list and answers a continuation
request uri=u with the contiguous window starting at child u) terminates
within length plus two iterations of the while loop, stopping as soon as
a page adds no new child, and the resulting child list is a take-front
portion of the advertised list: it contains no duplicate child uris and
preserves the server-advertised order across page boundaries. -/
theorem C4_pagination (L : List String) (k : Nat) (hnd : L.Nodup) :
    ∃ m : Nat, getNodeChildren L k (L.length + 2) = some (L.take m)
      ∧ (L.take m).Nodup := by
  obtain ⟨m, -, -, h3⟩ := loadChildren_run L hnd k (L.length + 2) 0 (by omega) (by omega)
  exact ⟨m, h3, List.Sublist.nodup (List.take_sublist _ _) hnd⟩

/-- Witness for C4 on the advertised child list a, b, c with page size 2:
the loop loads the whole list without duplicates. -/
theorem C4_pagination_witness :
    ∃ m : Nat,
      getNodeChildren ["a", "b", "c"] 2 (["a", "b", "c"].length + 2)
        = some (["a", "b", "c"].take m)
      ∧ (["a", "b", "c"].take m).Nodup :=
  C4_pagination ["a", "b", "c"] 2 (by decide)

/-- Witness for C3 at a concrete input: a 404 response on close of an
open stream raises the node-not-found error. -/
theorem C3_close_status_dispatch_witness :
    close { closed := false, url := "https://h/x" }
        { status := 404, body := "", reason := "" }
      = Except.error (VOErr.nodeNotFound "https://h/x") :=
  (C3_close_status_dispatch { closed := false, url := "https://h/x" }
    { status := 404, body := "", reason := "" } rfl).2.1 rfl

/-- C8 counterexample: fixURI is not idempotent on every succeeding
input: on the uri vos://h, whose path part is empty, normpath of the
empty string is the single dot, so the first application returns
vos://h/. while the second application normalises the dot away and
returns vos://h/, a different string. -/
theorem C8_counterexample :
    fixURI "vos://cadc.nrc.ca!vospace".data "vos://h".data
        = Except.ok "vos://h/.".data
    ∧ fixURI "vos://cadc.nrc.ca!vospace".data "vos://h/.".data
        = Except.ok "vos://h/".data
    ∧ "vos://h/".data ≠ "vos://h/.".data := by
  refine ⟨by rfl, by rfl, by decide⟩

theorem takeWhile_all_chars (p : Char → Bool) (s : List Char)
    (h : ∀ c ∈ s, p c = true) : s.takeWhile p = s :=
  List.takeWhile_eq_self_iff.mpr h

theorem dropWhile_head_not (p : Char → Bool) (s : List Char)
    (h : ∀ c ∈ s.head?, p c = false) : s.dropWhile p = s := by
  cases s with
  | nil => rfl
  | cons c r => simp [List.dropWhile_cons, h c rfl]

theorem takeWhile_stop (p : Char → Bool) (u : List Char) (d : Char) (w : List Char)
    (hu : ∀ c ∈ u, p c = true) (hd : p d = false) :
    (u ++ d :: w).takeWhile p = u ∧ (u ++ d :: w).dropWhile p = d :: w := by
  constructor
  · rw [List.takeWhile_append_of_pos hu]
    simp [List.takeWhile_cons, hd]
  · rw [List.dropWhile_append_of_pos hu]
    simp [List.dropWhile_cons, hd]

theorem takeWhile_cut (p : Char → Bool) (d : Char) (hd : p d = false) :
    ∀ (u w : List Char), (u ++ d :: w).takeWhile p = u.takeWhile p := by
  intro u
  induction u with
  | nil => intro w; simp [List.takeWhile_cons, hd]
  | cons c u2 ih =>
    intro w
    by_cases hc : p c = true
    · simp [List.takeWhile_cons, hc, ih]
    · simp only [Bool.not_eq_true] at hc
      simp [List.takeWhile_cons, hc]

theorem basenameL_append (a b : List Char) :
    basenameL (a ++ '/' :: b) = basenameL b := by
  unfold basenameL
  rw [List.reverse_append, List.reverse_cons, List.append_assoc, List.singleton_append,
    takeWhile_cut _ '/' (by decide)]

theorem basenameL_no_slash (s : List Char) (h : ∀ c ∈ s, c ≠ '/') :
    basenameL s = s := by
  unfold basenameL
  rw [takeWhile_all_chars _ _ (by
    intro c hc
    simp [h c (List.mem_reverse.mp hc)]), List.reverse_reverse]

theorem splitSlash_no_slash (x : List Char) (h : ∀ c ∈ x, c ≠ '/') :
    splitSlash x = [x] := by
  induction x with
  | nil => rfl
  | cons c r ih =>
    have hc : ¬ (c = '/') := h c (by simp)
    rw [splitSlash, if_neg hc, ih (fun d hd => h d (by simp [hd]))]

theorem splitSlash_append (x : List Char) (h : ∀ c ∈ x, c ≠ '/') :
    ∀ z, splitSlash (x ++ '/' :: z) = x :: splitSlash z := by
  induction x with
  | nil =>
    intro z
    rw [List.nil_append, splitSlash, if_pos rfl]
  | cons c r ih =>
    intro z
    have hc : ¬ (c = '/') := h c (by simp)
    rw [List.cons_append, splitSlash, if_neg hc, ih (fun d hd => h d (by simp [hd])) z]

theorem splitSlash_joinSlash (rs : List (List Char)) (hne : rs ≠ [])
    (h : ∀ r ∈ rs, ∀ c ∈ r, c ≠ '/') : splitSlash (joinSlash rs) = rs := by
  induction rs with
  | nil => exact absurd rfl hne
  | cons x t ih =>
    cases t with
    | nil => exact splitSlash_no_slash x (h x (by simp))
    | cons y t2 =>
      rw [joinSlash, splitSlash_append x (h x (by simp)),
        ih (by simp) (fun r hr => h r (by simp [hr]))]

theorem joinSlash_ne_nil (x : List Char) (t : List (List Char)) (hx : x ≠ []) :
    joinSlash (x :: t) ≠ [] := by
  cases t with
  | nil => simpa [joinSlash] using hx
  | cons y t2 =>
    rw [joinSlash]
    simp [hx]

theorem joinSlash_head? (x : List Char) (t : List (List Char)) (hx : x ≠ []) :
    (joinSlash (x :: t)).head? = x.head? := by
  cases t with
  | nil => rfl
  | cons y t2 =>
    rw [joinSlash]
    cases x with
    | nil => exact absurd rfl hx
    | cons c r => rfl

theorem joinSlash_head_ns (rs : List (List Char)) (hne : ∀ r ∈ rs, r ≠ [])
    (hns : ∀ r ∈ rs, ∀ c ∈ r, c ≠ '/') : ∀ c ∈ (joinSlash rs).head?, c ≠ '/' := by
  cases rs with
  | nil => intro c hc; simp [joinSlash] at hc
  | cons x t =>
    intro c hc
    rw [joinSlash_head? x t (hne x (by simp))] at hc
    exact hns x (by simp) c (List.mem_of_mem_head? hc)

theorem joinSlash_last_ns (rs : List (List Char)) (hne : ∀ r ∈ rs, r ≠ [])
    (hns : ∀ r ∈ rs, ∀ c ∈ r, c ≠ '/') : ∀ c ∈ (joinSlash rs).getLast?, c ≠ '/' := by
  induction rs with
  | nil => intro c hc; simp [joinSlash] at hc
  | cons x t ih =>
    cases t with
    | nil =>
      intro c hc
      exact hns x (by simp) c (List.mem_of_getLast?_eq_some hc)
    | cons y t2 =>
      intro c hc
      rw [joinSlash, List.getLast?_append_cons] at hc
      have hJ : joinSlash (y :: t2) ≠ [] := joinSlash_ne_nil y t2 (hne y (by simp))
      rw [show ('/' :: joinSlash (y :: t2)) = ['/'] ++ joinSlash (y :: t2) from rfl,
        List.getLast?_append_of_ne_nil _ hJ] at hc
      exact ih (fun r hr => hne r (by simp [hr])) (fun r hr => hns r (by simp [hr])) c hc

theorem joinSlash_chars (rs : List (List Char)) :
    ∀ c ∈ joinSlash rs, c = '/' ∨ ∃ r ∈ rs, c ∈ r := by
  induction rs with
  | nil => intro c hc; simp [joinSlash] at hc
  | cons x t ih =>
    cases t with
    | nil => intro c hc; exact Or.inr ⟨x, by simp, hc⟩
    | cons y t2 =>
      intro c hc
      rw [joinSlash] at hc
      rcases List.mem_append.mp hc with h1 | h1
      · exact Or.inr ⟨x, by simp, h1⟩
      · rcases List.mem_cons.mp h1 with h2 | h2
        · exact Or.inl h2
        · rcases ih c h2 with h3 | ⟨r, hr, hcr⟩
          · exact Or.inl h3
          · exact Or.inr ⟨r, by simp [hr], hcr⟩

theorem basenameL_joinSlash (rs : List (List Char))
    (hns : ∀ r ∈ rs, ∀ c ∈ r, c ≠ '/') :
    basenameL (joinSlash rs) = [] ∨ basenameL (joinSlash rs) ∈ rs := by
  induction rs with
  | nil => exact Or.inl rfl
  | cons x t ih =>
    cases t with
    | nil =>
      right
      rw [show joinSlash [x] = x from rfl, basenameL_no_slash x (hns x (by simp))]
      simp
    | cons y t2 =>
      rw [joinSlash, basenameL_append]
      rcases ih (fun r hr => hns r (by simp [hr])) with h | h
      · exact Or.inl h
      · exact Or.inr (by simp [h])

theorem validName_chars (s : List Char) (h : validName s = true) :
    ∀ c ∈ s, c ≠ '/' ∧ c ≠ '\n' := by
  intro c hc
  have hall := List.all_eq_true.mp h c hc
  constructor <;> (intro he; subst he; exact absurd hall (by decide))

theorem stripSlash_replicate (i : Nat) (w : List Char)
    (hh : ∀ c ∈ w.head?, c ≠ '/') (hl : ∀ c ∈ w.getLast?, c ≠ '/') :
    stripSlash (List.replicate i '/' ++ w) = w := by
  unfold stripSlash
  have h1 : (List.replicate i '/' ++ w).dropWhile (fun c => c = '/')
      = w.dropWhile (fun c => c = '/') := by
    induction i with
    | zero => rfl
    | succ j ih =>
      rw [List.replicate_succ, List.cons_append, List.dropWhile_cons]
      simp only [decide_eq_true_eq, if_pos rfl]
      exact ih
  have h2 : w.dropWhile (fun c => c = '/') = w :=
    dropWhile_head_not _ w (by intro c hc; simp [hh c hc])
  rw [h1, h2]
  have h3 : w.reverse.dropWhile (fun c => c = '/') = w.reverse := by
    apply dropWhile_head_not
    intro c hc
    rw [List.head?_reverse] at hc
    simp [hl c hc]
  rw [h3, List.reverse_reverse]

theorem npFold_skip (i : Nat) (acc rest : List (List Char)) :
    npFold i acc ([] :: rest) = npFold i acc rest := by
  rw [npFold, if_pos (Or.inl rfl)]

theorem npFold_all_plain (i : Nat) :
    ∀ (comps acc : List (List Char)),
      (∀ r ∈ comps, r ≠ [] ∧ r ≠ ['.'] ∧ r ≠ ['.', '.']) →
      npFold i acc comps = acc ++ comps := by
  intro comps
  induction comps with
  | nil => intro acc _; simp [npFold]
  | cons comp rest ih =>
    intro acc hp
    obtain ⟨h1n, h2n, h3n⟩ := hp comp (by simp)
    rw [npFold, if_neg (by simp [h1n, h2n]), if_pos (Or.inl h3n),
      ih (acc ++ [comp]) (fun r hr => hp r (by simp [hr]))]
    simp

theorem npFold_good (i : Nat) (hi : i ≠ 0) :
    ∀ (comps acc : List (List Char)),
      (∀ a ∈ acc, a ≠ [] ∧ a ≠ ['.'] ∧ a ≠ ['.', '.']) →
      ∀ r ∈ npFold i acc comps,
        (r ∈ acc ∨ r ∈ comps) ∧ (r ≠ [] ∧ r ≠ ['.'] ∧ r ≠ ['.', '.']) := by
  intro comps
  induction comps with
  | nil =>
    intro acc hacc r hr
    rw [npFold] at hr
    exact ⟨Or.inl hr, hacc r hr⟩
  | cons comp rest ih =>
    intro acc hacc r hr
    rw [npFold] at hr
    by_cases hskip : comp = [] ∨ comp = ['.']
    · rw [if_pos hskip] at hr
      obtain ⟨hm, hg⟩ := ih acc hacc r hr
      exact ⟨hm.imp id (fun h => by simp [h]), hg⟩
    · rw [if_neg hskip] at hr
      have hs := not_or.mp hskip
      by_cases happ : comp ≠ ['.', '.'] ∨ (i = 0 ∧ acc = [])
          ∨ (acc ≠ [] ∧ acc.getLast? = some ['.', '.'])
      · rw [if_pos happ] at hr
        have hcomp : comp ≠ ['.', '.'] := by
          rcases happ with h | h | h
          · exact h
          · exact absurd h.1 hi
          · exact absurd rfl (hacc _ (List.mem_of_getLast?_eq_some h.2)).2.2
        obtain ⟨hm, hg⟩ := ih (acc ++ [comp]) (by
          intro a ha
          rcases List.mem_append.mp ha with h | h
          · exact hacc a h
          · rw [List.mem_singleton.mp h]
            exact ⟨hs.1, hs.2, hcomp⟩) r hr
        refine ⟨?_, hg⟩
        rcases hm with h | h
        · rcases List.mem_append.mp h with h2m | h2m
          · exact Or.inl h2m
          · exact Or.inr (by simp [List.mem_singleton.mp h2m])
        · exact Or.inr (by simp [h])
      · rw [if_neg happ] at hr
        by_cases hane : acc ≠ []
        · rw [if_pos hane] at hr
          obtain ⟨hm, hg⟩ := ih acc.dropLast
            (fun a ha => hacc a (List.dropLast_subset _ ha)) r hr
          refine ⟨?_, hg⟩
          rcases hm with h | h
          · exact Or.inl (List.dropLast_subset _ h)
          · exact Or.inr (by simp [h])
        · rw [if_neg hane] at hr
          obtain ⟨hm, hg⟩ := ih acc hacc r hr
          exact ⟨hm.imp id (fun h => by simp [h]), hg⟩

theorem normpathL_of_abs (P : List Char) (hP : P.take 1 = ['/']) :
    ∃ i, i ≠ 0 ∧ normpathL P
        = List.replicate i '/' ++ joinSlash (npFold i [] (splitSlash P)) := by
  obtain ⟨P1, rfl⟩ : ∃ P1, P = '/' :: P1 := by
    cases P with
    | nil => simp at hP
    | cons c P1 =>
      simp only [List.take_succ_cons, List.take_zero] at hP
      have hc : c = '/' := by simpa using hP
      exact ⟨P1, by rw [hc]⟩
  have hA : ('/' :: P1).take 1 = ['/'] := rfl
  by_cases hc2 : ('/' :: P1).take 2 = ['/', '/'] ∧ ('/' :: P1).take 3 ≠ ['/', '/', '/']
  · refine ⟨2, by omega, ?_⟩
    simp only [normpathL]
    rw [if_neg (by simp), if_pos hA, if_pos hc2, if_neg (by simp)]
  · refine ⟨1, by omega, ?_⟩
    simp only [normpathL]
    rw [if_neg (by simp), if_pos hA, if_neg hc2, if_neg (by simp)]

theorem normpath_round2 (rs : List (List Char))
    (hplain : ∀ r ∈ rs, r ≠ [] ∧ r ≠ ['.'] ∧ r ≠ ['.', '.'])
    (hnos : ∀ r ∈ rs, ∀ c ∈ r, c ≠ '/') :
    stripSlash (normpathL ('/' :: joinSlash rs)) = joinSlash rs := by
  cases rs with
  | nil => decide
  | cons x rs2 =>
    have hxne : x ≠ [] := (hplain x (by simp)).1
    have hJne : joinSlash (x :: rs2) ≠ [] := joinSlash_ne_nil x rs2 hxne
    have hhead : ∀ c ∈ (joinSlash (x :: rs2)).head?, c ≠ '/' :=
      joinSlash_head_ns (x :: rs2) (fun r hr => (hplain r hr).1) hnos
    have hlast : ∀ c ∈ (joinSlash (x :: rs2)).getLast?, c ≠ '/' :=
      joinSlash_last_ns (x :: rs2) (fun r hr => (hplain r hr).1) hnos
    obtain ⟨c0, S1, hS⟩ : ∃ c0 S1, joinSlash (x :: rs2) = c0 :: S1 := by
      cases hJ : joinSlash (x :: rs2) with
      | nil => exact absurd hJ hJne
      | cons c0 S1 => exact ⟨c0, S1, rfl⟩
    have hc0 : c0 ≠ '/' := by
      apply hhead
      rw [hS]
      rfl
    rw [hS]
    simp only [normpathL]
    rw [if_neg (by simp)]
    have hA : ('/' :: c0 :: S1).take 1 = ['/'] := rfl
    rw [if_pos hA]
    have hB : ¬(('/' :: c0 :: S1).take 2 = ['/', '/']
        ∧ ('/' :: c0 :: S1).take 3 ≠ ['/', '/', '/']) := by
      intro hcon
      have h2t := hcon.1
      simp only [List.take_succ_cons, List.take_zero] at h2t
      have hc0e : c0 = '/' := by simpa using h2t
      exact hc0 hc0e
    rw [if_neg hB]
    rw [show splitSlash ('/' :: c0 :: S1) = [] :: splitSlash (c0 :: S1) by
      rw [splitSlash, if_pos rfl]]
    rw [npFold_skip, ← hS, splitSlash_joinSlash (x :: rs2) (by simp) hnos,
      npFold_all_plain 1 (x :: rs2) [] hplain, List.nil_append]
    rw [if_neg (by simp)]
    exact stripSlash_replicate 1 _ hhead hlast

theorem parseNetloc_no_slash (s nl : List Char) (h : (parseNetloc s).1 = some nl) :
    ∀ c ∈ nl, c ≠ '/' := by
  unfold parseNetloc at h
  split at h
  · simp only [Option.some.injEq] at h
    intro c hc
    rw [← h] at hc
    have := List.mem_takeWhile_imp hc
    simpa using this
  · simp at h

theorem urlparseL_netloc_no_slash (s nl : List Char)
    (h : (urlparseL s).netloc = some nl) : ∀ c ∈ nl, c ≠ '/' :=
  parseNetloc_no_slash (parseScheme s).2 nl h

theorem hostOf_facts (nlo : Option (List Char))
    (hn : ∀ nl, nlo = some nl → ∀ c ∈ nl, c ≠ '/') :
    hostOf nlo ≠ [] ∧ ∀ c ∈ hostOf nlo, c ≠ '/' := by
  cases nlo with
  | none => exact ⟨by decide, by decide⟩
  | some nl =>
    by_cases hnil : nl = []
    · rw [hostOf, if_pos hnil]
      exact ⟨by decide, by decide⟩
    · rw [hostOf, if_neg hnil]
      exact ⟨hnil, hn nl rfl⟩

/-- C8 (amended): fixURI is idempotent on every input it accepts whose
parsed path (after root-node prefixing) is absolute (begins with a
slash) and has every slash-separated component within the filename
allow-list; the counterexample shows idempotence fails in general (an
empty path normalises to a single dot on the first pass and to nothing
on the second). -/
theorem C8_fixURI_idem (root p q : List Char)
    (h1 : fixURI root p = Except.ok q)
    (h2 : (effPath root p).take 1 = ['/'])
    (h3 : ∀ comp0 ∈ splitSlash (effPath root p), validName comp0 = true) :
    fixURI root q = Except.ok q := by
  unfold fixURI at h1
  simp only at h1
  unfold effPath at h2 h3
  set uri1 := (if p.take 4 ≠ vosColon then root ++ p else p) with huri1
  split_ifs at h1 with hg1 hg2
  -- split_ifs discharges the two error branches, where h1 is absurd
  -- first-round facts
  have hnet_ns : ∀ nl, (urlparseL uri1).netloc = some nl → ∀ c ∈ nl, c ≠ '/' :=
    fun nl hnl => urlparseL_netloc_no_slash uri1 nl hnl
  obtain ⟨hhost_ne, hhost_ns⟩ := hostOf_facts (urlparseL uri1).netloc hnet_ns
  set H := hostOf (urlparseL uri1).netloc with hHdef
  set P := (urlparseL uri1).path with hPdef
  obtain ⟨i, hi, hnp⟩ := normpathL_of_abs P h2
  set rs := npFold i [] (splitSlash P) with hrsdef
  have hrs_good : ∀ r ∈ rs, r ∈ splitSlash P ∧ (r ≠ [] ∧ r ≠ ['.'] ∧ r ≠ ['.', '.']) := by
    intro r hr
    have hg := npFold_good i hi (splitSlash P) [] (by simp) r hr
    exact ⟨hg.1.resolve_left (by simp), hg.2⟩
  have hrs_valid : ∀ r ∈ rs, validName r = true := fun r hr => h3 r (hrs_good r hr).1
  have hrs_plain : ∀ r ∈ rs, r ≠ [] ∧ r ≠ ['.'] ∧ r ≠ ['.', '.'] :=
    fun r hr => (hrs_good r hr).2
  have hrs_ne : ∀ r ∈ rs, r ≠ [] := fun r hr => (hrs_plain r hr).1
  have hrs_ns : ∀ r ∈ rs, ∀ c ∈ r, c ≠ '/' :=
    fun r hr c hc => (validName_chars r (hrs_valid r hr) c hc).1
  have hrs_nn : ∀ r ∈ rs, ∀ c ∈ r, c ≠ '\n' :=
    fun r hr c hc => (validName_chars r (hrs_valid r hr) c hc).2
  have hJhead : ∀ c ∈ (joinSlash rs).head?, c ≠ '/' := joinSlash_head_ns rs hrs_ne hrs_ns
  have hJlast : ∀ c ∈ (joinSlash rs).getLast?, c ≠ '/' := joinSlash_last_ns rs hrs_ne hrs_ns
  set S := stripSlash (normpathL P) with hSdef
  have hSJ : S = joinSlash rs := by
    rw [hSdef, hnp]
    exact stripSlash_replicate i _ hJhead hJlast
  have hS_nn : ∀ c ∈ S, c ≠ '\n' := by
    rw [hSJ]
    intro c hc
    rcases joinSlash_chars rs c hc with h | ⟨r, hr, hcr⟩
    · rw [h]; decide
    · exact hrs_nn r hr c hcr
  have hS_head : ∀ c ∈ S.head?, c ≠ '/' := by rw [hSJ]; exact hJhead
  have hS_last : ∀ c ∈ S.getLast?, c ≠ '/' := by rw [hSJ]; exact hJlast
  -- the first-round output
  rw [Except.ok.injEq] at h1
  subst h1
  -- second round
  have hps : parseScheme ('v' :: 'o' :: 's' :: ':' :: '/' :: '/' :: (H ++ '/' :: S))
      = (some ['v', 'o', 's'], '/' :: '/' :: (H ++ '/' :: S)) := rfl
  have htw := takeWhile_stop (fun c => c ≠ '/') H '/' S
    (by intro c hc; simpa using hhost_ns c hc) (by decide)
  have hpn : parseNetloc ('/' :: '/' :: (H ++ '/' :: S)) = (some H, '/' :: S) := by
    have e : parseNetloc ('/' :: '/' :: (H ++ '/' :: S))
        = (some ((H ++ '/' :: S).takeWhile (fun c => c ≠ '/')),
           (H ++ '/' :: S).dropWhile (fun c => c ≠ '/')) := rfl
    rw [e, htw.1, htw.2]
  have hurl : urlparseL ('v' :: 'o' :: 's' :: ':' :: '/' :: '/' :: (H ++ '/' :: S))
      = { scheme := some ['v', 'o', 's'], netloc := some H, path := '/' :: S } := by
    simp only [urlparseL, hps, hpn]
    congr 1
    apply takeWhile_all_chars
    intro c hc
    rcases List.mem_cons.mp hc with h | h
    · rw [h]; decide
    · simpa using hS_nn c h
  have hbn : validName (basenameL ('/' :: S)) = true := by
    have e1 : basenameL ('/' :: S) = basenameL S := by
      rw [show ('/' :: S) = [] ++ '/' :: S from rfl, basenameL_append]
    rw [e1, hSJ]
    rcases basenameL_joinSlash rs hrs_ns with h | h
    · rw [h]; rfl
    · exact hrs_valid _ h
  have hstrip2 : stripSlash (normpathL ('/' :: S)) = S := by
    rw [hSJ]
    exact normpath_round2 rs hrs_plain hrs_ns
  have hurlA : urlparseL (['v', 'o', 's', ':', '/', '/'] ++ H ++ '/' :: S)
      = { scheme := some ['v', 'o', 's'], netloc := some H, path := '/' :: S } := hurl
  unfold fixURI
  have htk4 : List.take 4 (['v', 'o', 's', ':', '/', '/'] ++ H ++ '/' :: S) = vosColon := rfl
  rw [if_neg (show ¬(List.take 4 (['v', 'o', 's', ':', '/', '/'] ++ H ++ '/' :: S)
    ≠ vosColon) from fun hne => hne htk4)]
  simp only []
  rw [hurlA]
  rw [if_neg (by simp)]
  rw [if_neg (by simp [hbn])]
  dsimp only
  rw [hstrip2]
  rw [show hostOf (some H) = if H = [] then VOSpaceServerHost else H from rfl,
    if_neg hhost_ne]

/-- Witness for C8 at a concrete absolute uri with allow-listed
components: fixing vos://h/a/b twice gives the same result as once. -/
theorem C8_fixURI_idem_witness :
    fixURI "vos://cadc.nrc.ca!vospace".data "vos://h/a/b".data
      = Except.ok "vos://h/a/b".data :=
  C8_fixURI_idem "vos://cadc.nrc.ca!vospace".data "vos://h/a/b".data
    "vos://h/a/b".data (by rfl) (by rfl) (by decide)

end VOS
